import Mathlib

/-!
Shallow embedding of the EV-charging location-allocation pipeline
(scripts/make_cost_matrix_full.py, scripts/solve_max_coverage_full.py,
scripts/evaluate_solution.py, scripts/baseline_metrics.py) and proofs of
the specification claims about it.

Floating-point costs are modelled as exact rationals (the scripts only
compare and filter them); evaluator distances are modelled as real
numbers; where non-finite floats matter, coordinates are modelled as
`Option ℝ` with `none` standing for a non-finite value (NaN or ±Inf).
-/

/-- One row of the long-form cost matrix `cost_matrix_full.csv`: columns
`i` (demand index), `j` (candidate index) and `cost_m`. -/
structure CostRow where
  i : ℕ
  j : ℕ
  cost : ℚ
deriving DecidableEq, Repr

/-- Coverage sets from solve_max_coverage_full.py:
`cover[i] = df[(df["i"] == i) & (df["cost_m"] <= THRESHOLD_M)]["j"].tolist()`. -/
def cover (rows : List CostRow) (T : ℚ) (i : ℕ) : List ℕ :=
  (rows.filter (fun r => r.i == i && decide (r.cost ≤ T))).map (fun r => r.j)

/-- Long-table construction from make_cost_matrix_full.py:
`i = repeat(arange I, J)`, `j = tile(arange J, I)`, `cost_m = dist.reshape(-1)`,
with the distance matrix entries given by the function `cost`. -/
def mkCostRows (I J : ℕ) (cost : ℕ → ℕ → ℚ) : List CostRow :=
  (List.range I).flatMap (fun i => (List.range J).map (fun j => ⟨i, j, cost i j⟩))

/-- `I = sorted(df["i"].unique())` as a finite set of demand indices. -/
def Iset (rows : List CostRow) : Finset ℕ :=
  (rows.map (fun r => r.i)).toFinset

/-- `J = sorted(df["j"].unique())` as a finite set of candidate indices. -/
def Jset (rows : List CostRow) : Finset ℕ :=
  (rows.map (fun r => r.j)).toFinset

/-- `J = sorted(df["j"].unique())` as the sorted list the script iterates over. -/
def Jsorted (rows : List CostRow) : List ℕ :=
  (Jset rows).sort (· ≤ ·)

/-- An assignment of the decision variables of the integer program:
`sel` is the set of candidates `j` with `x[j] = 1`, `cov` the set of
demand indices `i` with `y[i] = 1`. -/
structure Assign where
  sel : Finset ℕ
  cov : Finset ℕ
deriving DecidableEq

/-- Feasibility for the integer program built in solve_max_coverage_full.py:
booleans `x[j]` for `j ∈ J` and `y[i]` for `i ∈ I`; for every `i`,
`y[i] == 0` when `cover[i]` is empty and `y[i] <= sum(x[j] for j in cover[i])`
otherwise; and `sum(x[j] for j in J) == P`. -/
def FeasibleILP (Jfs Ifs : Finset ℕ) (cfn : ℕ → List ℕ) (P : ℕ) (a : Assign) : Prop :=
  a.sel ⊆ Jfs ∧ a.cov ⊆ Ifs ∧ a.sel.card = P ∧
  (∀ i ∈ Ifs, cfn i = [] → i ∉ a.cov) ∧
  (∀ i ∈ Ifs, i ∈ a.cov → ∃ j ∈ cfn i, j ∈ a.sel)

/-- Number of demand indices covered by a selection `S`: the objective value
the maximizer attains once each `y[i]` is pushed to its upper bound. -/
def coveredCount (Ifs : Finset ℕ) (cfn : ℕ → List ℕ) (S : Finset ℕ) : ℕ :=
  (Ifs.filter (fun i => ∃ j ∈ cfn i, j ∈ S)).card

/-- Optimal objective value of the max-coverage integer program with
facility budget `P`: the best covered count over all selections of exactly
`P` candidates from `J`. -/
def optVal (Jfs Ifs : Finset ℕ) (cfn : ℕ → List ℕ) (P : ℕ) : ℕ :=
  (Jfs.powersetCard P).sup (fun S => coveredCount Ifs cfn S)

/-- A selection the backend may return on status OPTIMAL: exactly `P`
candidates from `J` attaining the optimal objective value. -/
def IsOptimalSel (Jfs Ifs : Finset ℕ) (cfn : ℕ → List ℕ) (P : ℕ) (S : Finset ℕ) : Prop :=
  S ⊆ Jfs ∧ S.card = P ∧ coveredCount Ifs cfn S = optVal Jfs Ifs cfn P

/-- Behaviour of `main` in solve_max_coverage_full.py, with the SCIP backend
modelled as an exact solver: it reports status OPTIMAL together with some
optimal assignment exactly when the program is feasible, i.e. when `P ≤ |J|`
(the only constraint that can fail is `sum(x[j]) == P` over booleans).
On OPTIMAL the script emits `chosen = [j for j in J if x[j] > 0.5]` and
`covered = sum(1 for i in I if y[i] > 0.5)`; on any other status it raises
`RuntimeError("No optimal solution found")`, modelled as an `Except.error`. -/
def mainRel (rows : List CostRow) (P : ℕ) (T : ℚ) (res : Except String (List ℕ × ℕ)) : Prop :=
  if P ≤ (Jset rows).card then
    ∃ S, IsOptimalSel (Jset rows) (Iset rows) (cover rows T) P S ∧
      res = Except.ok ((Jsorted rows).filter (fun j => decide (j ∈ S)),
                       coveredCount (Iset rows) (cover rows T) S)
  else res = Except.error "No optimal solution found"

/-- Planar point: the (x, y) columns extracted from the geometries after
reprojection to EPSG:27700. -/
abbrev Pt := ℝ × ℝ

/-- Squared Euclidean distance, `((d_xy[:, None, :] - s_xy[None, :, :]) ** 2).sum(axis=2)`. -/
noncomputable def npDist2 (p q : Pt) : ℝ := (p.1 - q.1) ^ 2 + (p.2 - q.2) ^ 2

/-- One entry of the numpy distance matrix, `np.sqrt(...)`. -/
noncomputable def npDist (p q : Pt) : ℝ := Real.sqrt (npDist2 p q)

/-- `nearest = dist.min(axis=1)` in evaluate_solution.py and
baseline_metrics.py: `none` models the numpy ValueError raised when the
reduction axis (the supply set) is empty; otherwise the vector of row
minima of the distance matrix. -/
noncomputable def nearestVec (d sall : List Pt) : Option (List ℝ) :=
  if sall = [] then none
  else some (d.map (fun p => ((sall.map (npDist p)).min?).getD 0))

/-- `c_new = c.iloc[chosen]`: `none` models the pandas error raised on an
out-of-range positional index. -/
def cIloc (cand : List Pt) (chosen : List ℕ) : Option (List Pt) :=
  chosen.mapM (fun k => cand[k]?)

/-- `np.median`: the middle order statistic for odd length, the average of
the two middle order statistics for even length. -/
noncomputable def npMedian (xs : List ℝ) : ℝ :=
  let ys := List.insertionSort (fun a b => a ≤ b) xs
  if xs.length % 2 = 1 then ys.getD (xs.length / 2) 0
  else (ys.getD (xs.length / 2 - 1) 0 + ys.getD (xs.length / 2) 0) / 2

/-- The metrics record written by evaluate_solution.py (and, with
`nNew = 0`, the analogous record of baseline_metrics.py). -/
structure EvalMetrics where
  nDemand : ℕ
  nExisting : ℕ
  nNew : ℕ
  meanNearest : ℝ
  medianNearest : ℝ
  covFrac : ℝ
  threshold : ℝ

/-- `main` of evaluate_solution.py: select the chosen candidate rows,
concatenate existing supply with them, take row minima of the distance
matrix and emit mean, median and the fraction within the threshold
(`(nearest <= THRESHOLD_M).mean()` is the count divided by the demand
count). -/
noncomputable def evalSolution (d s c : List Pt) (chosen : List ℕ) (T : ℝ) :
    Option EvalMetrics :=
  (cIloc c chosen).bind (fun cNew =>
    (nearestVec d (s ++ cNew)).map (fun near =>
      { nDemand := d.length
        nExisting := s.length
        nNew := chosen.length
        meanNearest := near.sum / d.length
        medianNearest := npMedian near
        covFrac := ((near.filter (fun x => decide (x ≤ T))).length : ℝ) / d.length
        threshold := T }))

/-- `main` of baseline_metrics.py: the same statistics computed against the
existing supply set only. -/
noncomputable def baselineMetrics (d s : List Pt) (T : ℝ) : Option EvalMetrics :=
  (nearestVec d s).map (fun near =>
    { nDemand := d.length
      nExisting := s.length
      nNew := 0
      meanNearest := near.sum / d.length
      medianNearest := npMedian near
      covFrac := ((near.filter (fun x => decide (x ≤ T))).length : ℝ) / d.length
      threshold := T })

/-- A float coordinate in make_cost_matrix_full.py: `some x` is a finite
value, `none` a non-finite one (NaN or ±Inf). The operations the builder
applies (subtraction, squaring, addition, square root of a non-negative
number) all map non-finite operands to non-finite results, which is what
the `Option` propagation captures. -/
abbrev FCoord := Option ℝ

/-- Subtraction `d_xy[:, None, :] - c_xy[None, :, :]` on float coordinates. -/
def fsub (a b : FCoord) : FCoord :=
  a.bind (fun x => b.map (fun y => x - y))

/-- Squaring `(...) ** 2` on float values. -/
def fsq (a : FCoord) : FCoord := a.map (fun x => x ^ 2)

/-- Addition `.sum(axis=2)` of the two squared coordinate differences. -/
def fadd (a b : FCoord) : FCoord :=
  a.bind (fun x => b.map (fun y => x + y))

/-- Square root `np.sqrt(...)` on float values. -/
noncomputable def fsqrtF (a : FCoord) : FCoord := a.map Real.sqrt

/-- One row of the long-form cost matrix with float-modelled cost. -/
structure CostRowF where
  i : ℕ
  j : ℕ
  cost : FCoord

/-- `main` of make_cost_matrix_full.py: for every demand index `i` and
candidate index `j`, one long-table row whose cost is the Euclidean
distance computed directly from the coordinates. The function is total:
the script performs no validation of any kind before emitting the matrix. -/
noncomputable def mkCostMatrixF (dxy cxy : List (FCoord × FCoord)) : List CostRowF :=
  (List.range dxy.length).flatMap (fun i =>
    (List.range cxy.length).map (fun j =>
      let p := dxy.getD i (none, none)
      let q := cxy.getD j (none, none)
      ⟨i, j, fsqrtF (fadd (fsq (fsub p.1 q.1)) (fsq (fsub p.2 q.2)))⟩))

/-- C3: in every feasible assignment of the integer program, a demand unit
with an empty coverage set has its covered indicator fixed to false, so for
every budget `P` and every selection it is excluded from the objective: the
covered set lies inside the coverable demand units and the objective value
is bounded by their number. -/
theorem emptyCover_never_counted (rows : List CostRow) (T : ℚ)
    (Jfs Ifs : Finset ℕ) (P : ℕ) (a : Assign)
    (ha : FeasibleILP Jfs Ifs (cover rows T) P a) :
    (∀ i ∈ Ifs, cover rows T i = [] → i ∉ a.cov) ∧
    a.cov ⊆ Ifs.filter (fun i => cover rows T i ≠ []) ∧
    a.cov.card ≤ (Ifs.filter (fun i => cover rows T i ≠ [])).card := by
  obtain ⟨-, hcovI, -, hempty, hhit⟩ := ha
  refine ⟨hempty, ?_, ?_⟩
  · intro i hi
    have hiI : i ∈ Ifs := hcovI hi
    rcases hhit i hiI hi with ⟨j, hj, -⟩
    refine Finset.mem_filter.mpr ⟨hiI, ?_⟩
    intro hnil
    rw [hnil] at hj
    exact (List.not_mem_nil j) hj
  · apply Finset.card_le_card
    intro i hi
    have hiI : i ∈ Ifs := hcovI hi
    rcases hhit i hiI hi with ⟨j, hj, -⟩
    refine Finset.mem_filter.mpr ⟨hiI, ?_⟩
    intro hnil
    rw [hnil] at hj
    exact (List.not_mem_nil j) hj

/-- Witness for emptyCover_never_counted at a concrete feasible assignment:
demand 1 is at distance 5000 from the only candidate, its coverage set is
empty, and it is not in the covered set. -/
theorem emptyCover_never_counted_witness :
    (FeasibleILP {0} {0, 1} (cover [⟨0, 0, 500⟩, ⟨1, 0, 5000⟩] 1000) 1 ⟨{0}, {0}⟩ ∧
      (1 : ℕ) ∈ ({0, 1} : Finset ℕ) ∧ cover [⟨0, 0, 500⟩, ⟨1, 0, 5000⟩] 1000 1 = []) ∧
    (1 : ℕ) ∉ (⟨{0}, {0}⟩ : Assign).cov := by
  refine ⟨⟨?_, by decide, by decide⟩, ?_⟩
  · refine ⟨by decide, by decide, by decide, ?_, ?_⟩ <;> decide
  · exact (emptyCover_never_counted [⟨0, 0, 500⟩, ⟨1, 0, 5000⟩] 1000 {0} {0, 1} 1 ⟨{0}, {0}⟩
      ⟨by decide, by decide, by decide, by decide, by decide⟩).1 1 (by decide) (by decide)

/-- Every feasible assignment's objective value is at most `optVal`: the
`Finset.sup` formulation really bounds the integer program. -/
theorem FeasibleILP_le_optVal (Jfs Ifs : Finset ℕ) (cfn : ℕ → List ℕ) (P : ℕ)
    (a : Assign) (ha : FeasibleILP Jfs Ifs cfn P a) :
    a.cov.card ≤ optVal Jfs Ifs cfn P := by
  obtain ⟨hselJ, hcovI, hcard, -, hhit⟩ := ha
  have hsub : a.cov ⊆ Ifs.filter (fun i => ∃ j ∈ cfn i, j ∈ a.sel) := by
    intro i hi
    exact Finset.mem_filter.mpr ⟨hcovI hi, hhit i (hcovI hi) hi⟩
  calc a.cov.card ≤ coveredCount Ifs cfn a.sel := Finset.card_le_card hsub
    _ ≤ optVal Jfs Ifs cfn P :=
        Finset.le_sup (Finset.mem_powersetCard.mpr ⟨hselJ, hcard⟩)

/-- Whenever the program is feasible (`P ≤ |J|`), some feasible assignment
attains `optVal`, so `optVal` is exactly the integer program's optimal
objective value. -/
theorem optVal_attained (Jfs Ifs : Finset ℕ) (cfn : ℕ → List ℕ) (P : ℕ)
    (hP : P ≤ Jfs.card) :
    ∃ a, FeasibleILP Jfs Ifs cfn P a ∧ a.cov.card = optVal Jfs Ifs cfn P := by
  obtain ⟨t, htJ, htcard⟩ := Finset.exists_subset_card_eq hP
  have hne : (Jfs.powersetCard P).Nonempty :=
    ⟨t, Finset.mem_powersetCard.mpr ⟨htJ, htcard⟩⟩
  obtain ⟨S, hSmem, hSsup⟩ := Finset.exists_mem_eq_sup _ hne
    (fun S => coveredCount Ifs cfn S)
  rw [Finset.mem_powersetCard] at hSmem
  refine ⟨⟨S, Ifs.filter (fun i => ∃ j ∈ cfn i, j ∈ S)⟩, ⟨hSmem.1, Finset.filter_subset _ _, hSmem.2, ?_, ?_⟩, ?_⟩
  · intro i _ hnil hmem
    rcases (Finset.mem_filter.mp hmem).2 with ⟨j, hj, -⟩
    rw [hnil] at hj
    exact (List.not_mem_nil j) hj
  · intro i _ hmem
    exact (Finset.mem_filter.mp hmem).2
  · exact hSsup.symm

/-- When the script's solve succeeds, the emitted chosen list is the sorted
candidate list filtered by membership in some optimal selection. -/
theorem mainRel_ok_chosen (rows : List CostRow) (P : ℕ) (T : ℚ)
    (chosen : List ℕ) (m : ℕ)
    (h : mainRel rows P T (Except.ok (chosen, m))) :
    ∃ S, IsOptimalSel (Jset rows) (Iset rows) (cover rows T) P S ∧
      chosen = (Jsorted rows).filter (fun j => decide (j ∈ S)) := by
  unfold mainRel at h
  by_cases hP : P ≤ (Jset rows).card
  · rw [if_pos hP] at h
    obtain ⟨S, hS, heq⟩ := h
    refine ⟨S, hS, ?_⟩
    have := (Except.ok.injEq _ _).mp heq
    exact (Prod.mk.injEq _ _ _ _).mp this |>.1
  · rw [if_neg hP] at h
    exact absurd h (by simp)

/-- C4: every Optimal solve returns exactly `P` distinct candidate indices,
all drawn from the candidate set `J`. -/
theorem solve_returns_P_distinct (rows : List CostRow) (P : ℕ) (T : ℚ)
    (chosen : List ℕ) (m : ℕ)
    (h : mainRel rows P T (Except.ok (chosen, m))) :
    chosen.length = P ∧ chosen.Nodup ∧ ∀ j ∈ chosen, j ∈ Jset rows := by
  obtain ⟨S, ⟨hSJ, hScard, -⟩, rfl⟩ := mainRel_ok_chosen rows P T chosen m h
  have hnd : ((Jsorted rows).filter (fun j => decide (j ∈ S))).Nodup :=
    List.Nodup.sublist (List.filter_sublist _) (Finset.sort_nodup _ _)
  refine ⟨?_, hnd, ?_⟩
  · have hto : ((Jsorted rows).filter (fun j => decide (j ∈ S))).toFinset = S := by
      ext x
      simp only [List.mem_toFinset, List.mem_filter, Jsorted, Finset.mem_sort,
        decide_eq_true_eq]
      exact ⟨fun hx => hx.2, fun hx => ⟨hSJ hx, hx⟩⟩
    have hlen := List.toFinset_card_of_nodup hnd
    rw [hto] at hlen
    omega
  · intro j hj
    have : j ∈ Jsorted rows := List.mem_of_mem_filter hj
    rwa [Jsorted, Finset.mem_sort] at this

/-- Witness for solve_returns_P_distinct: one demand point, one candidate at
distance 500 ≤ 1000, budget P = 1; the solve succeeds with chosen = [0]. -/
theorem solve_returns_P_distinct_witness :
    mainRel [⟨0, 0, (500 : ℚ)⟩] 1 1000 (Except.ok ([0], 1)) ∧
    ([0] : List ℕ).length = 1 ∧ ([0] : List ℕ).Nodup ∧
      ∀ j ∈ ([0] : List ℕ), j ∈ Jset [⟨0, 0, (500 : ℚ)⟩] := by
  have hm : mainRel [⟨0, 0, (500 : ℚ)⟩] 1 1000 (Except.ok ([0], 1)) := by
    unfold mainRel
    rw [if_pos (by decide)]
    refine ⟨{0}, ⟨by decide, by decide, by decide⟩, ?_⟩
    have hJ : Jset [⟨0, 0, (500 : ℚ)⟩] = {0} := by decide
    have h1 : Jsorted [⟨0, 0, (500 : ℚ)⟩] = [0] := by
      rw [Jsorted, hJ, Finset.sort_singleton]
    have h2 : coveredCount (Iset [⟨0, 0, (500 : ℚ)⟩])
        (cover [⟨0, 0, (500 : ℚ)⟩] 1000) {0} = 1 := by decide
    rw [h1, h2]
    norm_num
  exact ⟨hm, solve_returns_P_distinct [⟨0, 0, (500 : ℚ)⟩] 1 1000 [0] 1 hm⟩

/-- C9: the chosen-candidate list written to the solution artifact is
strictly increasing, hence duplicate-free: it is a filter of the sorted
unique candidate index list. -/
theorem chosen_strictly_increasing (rows : List CostRow) (P : ℕ) (T : ℚ)
    (chosen : List ℕ) (m : ℕ)
    (h : mainRel rows P T (Except.ok (chosen, m))) :
    List.Sorted (· < ·) chosen ∧ chosen.Nodup := by
  obtain ⟨S, -, rfl⟩ := mainRel_ok_chosen rows P T chosen m h
  have hs : List.Sorted (· < ·) (Jsorted rows) := Finset.sort_sorted_lt _
  have hsorted : List.Sorted (· < ·)
      ((Jsorted rows).filter (fun j => decide (j ∈ S))) :=
    List.Pairwise.sublist (List.filter_sublist _) hs
  exact ⟨hsorted, hsorted.nodup⟩

/-- Witness for chosen_strictly_increasing: two candidates, budget P = 2;
the emitted list is [0, 1], strictly increasing. -/
theorem chosen_strictly_increasing_witness :
    mainRel [⟨0, 0, (500 : ℚ)⟩, ⟨0, 1, 600⟩] 2 1000 (Except.ok ([0, 1], 1)) ∧
    List.Sorted (· < ·) ([0, 1] : List ℕ) ∧ ([0, 1] : List ℕ).Nodup := by
  have hm : mainRel [⟨0, 0, (500 : ℚ)⟩, ⟨0, 1, 600⟩] 2 1000 (Except.ok ([0, 1], 1)) := by
    unfold mainRel
    rw [if_pos (by decide)]
    refine ⟨{0, 1}, ⟨by decide, by decide, by decide⟩, ?_⟩
    have hJ : Jset [⟨0, 0, (500 : ℚ)⟩, ⟨0, 1, 600⟩] = Finset.range 2 := by decide
    have h1 : Jsorted [⟨0, 0, (500 : ℚ)⟩, ⟨0, 1, 600⟩] = [0, 1] := by
      rw [Jsorted, hJ, Finset.sort_range]
      decide
    have h2 : coveredCount (Iset [⟨0, 0, (500 : ℚ)⟩, ⟨0, 1, 600⟩])
        (cover [⟨0, 0, (500 : ℚ)⟩, ⟨0, 1, 600⟩] 1000) {0, 1} = 1 := by decide
    rw [h1, h2]
    norm_num
  have hres := chosen_strictly_increasing [⟨0, 0, (500 : ℚ)⟩, ⟨0, 1, 600⟩] 2 1000 [0, 1] 1 hm
  exact ⟨hm, hres⟩

/-- C1 (amended): when the candidate set has fewer than `P` members, the
script's only possible behaviour is to raise the unstructured
`RuntimeError("No optimal solution found")`; no structured Infeasible
outcome exists in its result type. -/
theorem infeasible_raises_runtime_error (rows : List CostRow) (P : ℕ) (T : ℚ)
    (res : Except String (List ℕ × ℕ)) (hlt : (Jset rows).card < P) :
    mainRel rows P T res ↔ res = Except.error "No optimal solution found" := by
  unfold mainRel
  rw [if_neg (by omega)]

/-- Witness for infeasible_raises_runtime_error: one candidate, budget
P = 10 as hard-coded in the script. -/
theorem infeasible_raises_runtime_error_witness :
    (Jset [⟨0, 0, (500 : ℚ)⟩]).card < 10 ∧
    (mainRel [⟨0, 0, (500 : ℚ)⟩] 10 1000 (Except.error "No optimal solution found") ↔
      (Except.error "No optimal solution found" : Except String (List ℕ × ℕ)) =
        Except.error "No optimal solution found") :=
  ⟨by decide, infeasible_raises_runtime_error [⟨0, 0, (500 : ℚ)⟩] 10 1000 _ (by decide)⟩

/-- Counterexample to C1 as stated: on an input with a single candidate and
the script's budget P = 10, the solve step's unique behaviour is the
unstructured error string — its result type carries no Infeasible (nor
Feasible-suboptimal, nor structured Error) outcome a caller could
distinguish, contradicting the claimed structured reporting. -/
theorem solver_outcomes_cex :
    mainRel [⟨0, 0, (500 : ℚ)⟩] 10 1000 (Except.error "No optimal solution found") ∧
    ∀ res, mainRel [⟨0, 0, (500 : ℚ)⟩] 10 1000 res →
      res = Except.error "No optimal solution found" := by
  constructor
  · unfold mainRel
    rw [if_neg (by decide)]
  · intro res h
    unfold mainRel at h
    rwa [if_neg (by decide)] at h

/-- C7: for a fixed coverage relation, the optimal objective value of the
max-coverage program is monotone in the facility budget: `P1 ≤ P2 ≤ |J|`
implies `optVal P1 ≤ optVal P2`. -/
theorem optVal_mono_budget (Jfs Ifs : Finset ℕ) (cfn : ℕ → List ℕ)
    (P1 P2 : ℕ) (h12 : P1 ≤ P2) (h2J : P2 ≤ Jfs.card) :
    optVal Jfs Ifs cfn P1 ≤ optVal Jfs Ifs cfn P2 := by
  apply Finset.sup_le
  intro S hS
  rw [Finset.mem_powersetCard] at hS
  obtain ⟨hSJ, hcard⟩ := hS
  obtain ⟨u, hSu, huJ, hucard⟩ :=
    Finset.exists_subsuperset_card_eq hSJ (by omega) h2J
  have hmono : coveredCount Ifs cfn S ≤ coveredCount Ifs cfn u := by
    apply Finset.card_le_card
    apply Finset.monotone_filter_right
    intro i hi
    obtain ⟨j, hj, hjS⟩ := hi
    exact ⟨j, hj, hSu hjS⟩
  exact le_trans hmono
    (Finset.le_sup (Finset.mem_powersetCard.mpr ⟨huJ, hucard⟩))

/-- Witness for optVal_mono_budget: two candidates each covering one of two
demand units; the optimum with budget 1 is at most the optimum with
budget 2 (1 ≤ 2 here). -/
theorem optVal_mono_budget_witness :
    ((1 : ℕ) ≤ 2 ∧ 2 ≤ ({0, 1} : Finset ℕ).card) ∧
    optVal {0, 1} {0, 1} (fun i => [i]) 1 ≤ optVal {0, 1} {0, 1} (fun i => [i]) 2 :=
  ⟨⟨by decide, by decide⟩,
    optVal_mono_budget {0, 1} {0, 1} (fun i => [i]) 1 2 (by decide) (by decide)⟩

/-- C2: the CoverageSetBuilder produces, for each demand index `i`, exactly
the set of candidate indices `j` with `cost(i,j) ≤ threshold`, the
comparison being non-strict. -/
theorem cover_eq_le_threshold (I J : ℕ) (cost : ℕ → ℕ → ℚ) (T : ℚ) (i j : ℕ)
    (hi : i < I) :
    j ∈ cover (mkCostRows I J cost) T i ↔ j < J ∧ cost i j ≤ T := by
  simp only [cover, mkCostRows, List.mem_map, List.mem_filter, List.mem_flatMap,
    List.mem_range, Bool.and_eq_true, beq_iff_eq, decide_eq_true_eq]
  constructor
  · rintro ⟨r, ⟨⟨i', hi', j', hj', rfl⟩, hri, hrc⟩, rfl⟩
    simp only at hri hrc ⊢
    subst hri
    exact ⟨hj', hrc⟩
  · rintro ⟨hj, hc⟩
    exact ⟨⟨i, j, cost i j⟩, ⟨⟨i, hi, j, hj, rfl⟩, rfl, hc⟩, rfl⟩

/-- Witness for cover_eq_le_threshold: a candidate at distance exactly the
threshold is included. -/
theorem cover_eq_le_threshold_witness :
    (0 < 2 ∧ ((1 ∈ cover (mkCostRows 2 3 (fun i j => i + j)) 1 0) ↔ 1 < 3 ∧ ((0 : ℚ) + 1 ≤ 1))) :=
  ⟨by decide, cover_eq_le_threshold 2 3 (fun i j => i + j) 1 0 1 (by decide)⟩

/-- The minimum of a non-empty list of reals is attained and is a global
lower bound. -/
theorem min?_attained (l : List ℝ) (h : l ≠ []) :
    ∃ m, l.min? = some m ∧ m ∈ l ∧ ∀ x ∈ l, m ≤ x := by
  cases hl : l.min? with
  | none => exact absurd (List.min?_eq_none_iff.mp hl) h
  | some m =>
    refine ⟨m, rfl, List.min?_mem min_choice hl, ?_⟩
    intro x hx
    exact (List.le_min?_iff (fun a b c => le_min_iff) hl).mp le_rfl x hx

/-- On a non-empty supply list, nearestVec returns the vector of row
minima, each attained on the supply list and a lower bound for it. -/
theorem nearestVec_some (d sall : List Pt) (h : sall ≠ []) :
    nearestVec d sall =
      some (d.map (fun p => ((sall.map (npDist p)).min?).getD 0)) ∧
    ∀ p : Pt, (∃ q ∈ sall, ((sall.map (npDist p)).min?).getD 0 = npDist p q) ∧
      ∀ q ∈ sall, ((sall.map (npDist p)).min?).getD 0 ≤ npDist p q := by
  constructor
  · rw [nearestVec, if_neg h]
  · intro p
    have hmap : sall.map (npDist p) ≠ [] := by
      intro hc
      exact h (List.map_eq_nil_iff.mp hc)
    obtain ⟨m, hm, hmem, hlb⟩ := min?_attained _ hmap
    rw [hm]
    simp only [Option.getD_some]
    obtain ⟨q, hq, hqe⟩ := List.mem_map.mp hmem
    exact ⟨⟨q, hq, hqe.symm⟩, fun q2 hq2 => hlb _ (List.mem_map_of_mem _ hq2)⟩

/-- Indexing a mapped list below its length evaluates the function at the
correspondingly indexed element. -/
theorem getD_map_lt (f : Pt → ℝ) (l : List Pt) (k : ℕ) (hk : k < l.length) :
    (l.map f).getD k 0 = f (l.getD k (0, 0)) := by
  rw [List.getD_eq_getElem?_getD, List.getD_eq_getElem?_getD, List.getElem?_map,
    List.getElem?_eq_getElem hk]
  rfl

/-- C10: the nearest-distance computation is defined exactly when the
supply set minimized over is non-empty: on an empty set the row-minimum
vector and with it the baseline metrics computation fail (`none`), and on
a non-empty set every demand unit's nearest distance is a well-defined,
attained minimum. -/
theorem nearest_defined_iff_supply_nonempty (d sall : List Pt) (T : ℝ) :
    (sall = [] → nearestVec d sall = none ∧ baselineMetrics d sall T = none) ∧
    (sall ≠ [] → ∃ v, nearestVec d sall = some v ∧ v.length = d.length ∧
      ∀ k, k < d.length →
        (∃ q ∈ sall, v.getD k 0 = npDist (d.getD k (0, 0)) q) ∧
        ∀ q ∈ sall, v.getD k 0 ≤ npDist (d.getD k (0, 0)) q) := by
  constructor
  · intro he
    have h1 : nearestVec d sall = none := by rw [nearestVec, if_pos he]
    refine ⟨h1, ?_⟩
    rw [baselineMetrics, h1]
    rfl
  · intro hne
    obtain ⟨hsome, hprop⟩ := nearestVec_some d sall hne
    refine ⟨_, hsome, by simp, ?_⟩
    intro k hk
    rw [getD_map_lt _ _ _ hk]
    exact hprop (d.getD k (0, 0))

/-- Witness for nearest_defined_iff_supply_nonempty: a single demand point;
with an empty supply list the computation fails, with supply [(3, 4)] it
succeeds and each entry is an attained minimum. -/
theorem nearest_defined_iff_supply_nonempty_witness :
    (nearestVec [((0 : ℝ), (0 : ℝ))] [] = none ∧
      baselineMetrics [((0 : ℝ), (0 : ℝ))] [] 1000 = none) ∧
    (∃ v, nearestVec [((0 : ℝ), (0 : ℝ))] [((3 : ℝ), (4 : ℝ))] = some v ∧
      v.length = [((0 : ℝ), (0 : ℝ))].length ∧
      ∀ k, k < [((0 : ℝ), (0 : ℝ))].length →
        (∃ q ∈ [((3 : ℝ), (4 : ℝ))],
          v.getD k 0 = npDist ([((0 : ℝ), (0 : ℝ))].getD k (0, 0)) q) ∧
        ∀ q ∈ [((3 : ℝ), (4 : ℝ))],
          v.getD k 0 ≤ npDist ([((0 : ℝ), (0 : ℝ))].getD k (0, 0)) q) :=
  ⟨(nearest_defined_iff_supply_nonempty [((0 : ℝ), (0 : ℝ))] [] 1000).1 rfl,
    (nearest_defined_iff_supply_nonempty [((0 : ℝ), (0 : ℝ))]
      [((3 : ℝ), (4 : ℝ))] 1000).2 (by simp)⟩

/-- C5: the SolutionEvaluator computes each demand unit's nearest distance
as the attained minimum Euclidean distance over the union of the existing
supply and the chosen candidate sites (not only the chosen ones), and
emits the mean of these nearest distances, their median, and the fraction
of demand units within the same threshold the solver used. -/
theorem evaluator_min_over_union (d s cand : List Pt) (chosen : List ℕ)
    (cNew : List Pt) (T : ℝ) (hc : cIloc cand chosen = some cNew)
    (hne : s ++ cNew ≠ []) :
    ∃ near, nearestVec d (s ++ cNew) = some near ∧ near.length = d.length ∧
      (∀ k, k < d.length →
        (∃ q, (q ∈ s ∨ q ∈ cNew) ∧ near.getD k 0 = npDist (d.getD k (0, 0)) q) ∧
        ∀ q, (q ∈ s ∨ q ∈ cNew) → near.getD k 0 ≤ npDist (d.getD k (0, 0)) q) ∧
      evalSolution d s cand chosen T = some
        { nDemand := d.length
          nExisting := s.length
          nNew := chosen.length
          meanNearest := near.sum / d.length
          medianNearest := npMedian near
          covFrac := ((near.filter (fun x => decide (x ≤ T))).length : ℝ) / d.length
          threshold := T } := by
  obtain ⟨hsome, hprop⟩ := nearestVec_some d (s ++ cNew) hne
  refine ⟨_, hsome, by simp, ?_, ?_⟩
  · intro k hk
    rw [getD_map_lt _ _ _ hk]
    obtain ⟨⟨q, hq, hqe⟩, hlb⟩ := hprop (d.getD k (0, 0))
    rw [List.mem_append] at hq
    exact ⟨⟨q, hq, hqe⟩, fun q2 hq2 => hlb q2 (List.mem_append.mpr hq2)⟩
  · rw [evalSolution, hc]
    show (nearestVec d (s ++ cNew)).map _ = _
    rw [hsome]
    rfl

/-- Witness for evaluator_min_over_union: one demand point, one existing
supply point, two candidates of which index 0 is chosen. -/
theorem evaluator_min_over_union_witness :
    cIloc [((0 : ℝ), (1 : ℝ)), ((9 : ℝ), (9 : ℝ))] [0] = some [((0 : ℝ), (1 : ℝ))] ∧
    (∃ near,
      nearestVec [((0 : ℝ), (0 : ℝ))] ([((3 : ℝ), (4 : ℝ))] ++ [((0 : ℝ), (1 : ℝ))]) = some near ∧
      near.length = [((0 : ℝ), (0 : ℝ))].length ∧
      (∀ k, k < [((0 : ℝ), (0 : ℝ))].length →
        (∃ q, (q ∈ [((3 : ℝ), (4 : ℝ))] ∨ q ∈ [((0 : ℝ), (1 : ℝ))]) ∧
          near.getD k 0 = npDist ([((0 : ℝ), (0 : ℝ))].getD k (0, 0)) q) ∧
        ∀ q, (q ∈ [((3 : ℝ), (4 : ℝ))] ∨ q ∈ [((0 : ℝ), (1 : ℝ))]) →
          near.getD k 0 ≤ npDist ([((0 : ℝ), (0 : ℝ))].getD k (0, 0)) q) ∧
      evalSolution [((0 : ℝ), (0 : ℝ))] [((3 : ℝ), (4 : ℝ))]
          [((0 : ℝ), (1 : ℝ)), ((9 : ℝ), (9 : ℝ))] [0] 1000 = some
        { nDemand := [((0 : ℝ), (0 : ℝ))].length
          nExisting := [((3 : ℝ), (4 : ℝ))].length
          nNew := ([0] : List ℕ).length
          meanNearest := near.sum / [((0 : ℝ), (0 : ℝ))].length
          medianNearest := npMedian near
          covFrac := ((near.filter (fun x => decide (x ≤ (1000 : ℝ)))).length : ℝ) /
            [((0 : ℝ), (0 : ℝ))].length
          threshold := 1000 }) :=
  ⟨rfl, evaluator_min_over_union [((0 : ℝ), (0 : ℝ))] [((3 : ℝ), (4 : ℝ))]
    [((0 : ℝ), (1 : ℝ)), ((9 : ℝ), (9 : ℝ))] [0] [((0 : ℝ), (1 : ℝ))] 1000 rfl (by simp)⟩

/-- Appending a sorted candidate selection: helper equality for the two
metrics records produced by the evaluator at a given threshold. -/
theorem evalSolution_eq (d s cand : List Pt) (chosen : List ℕ) (cNew : List Pt)
    (t : ℝ) (hc : cIloc cand chosen = some cNew) (hne : s ++ cNew ≠ []) :
    evalSolution d s cand chosen t = some
      { nDemand := d.length
        nExisting := s.length
        nNew := chosen.length
        meanNearest :=
          (d.map (fun p => (((s ++ cNew).map (npDist p)).min?).getD 0)).sum / d.length
        medianNearest :=
          npMedian (d.map (fun p => (((s ++ cNew).map (npDist p)).min?).getD 0))
        covFrac :=
          (((d.map (fun p => (((s ++ cNew).map (npDist p)).min?).getD 0)).filter
            (fun x => decide (x ≤ t))).length : ℝ) / d.length
        threshold := t } := by
  obtain ⟨hsome, -⟩ := nearestVec_some d (s ++ cNew) hne
  rw [evalSolution, hc]
  show (nearestVec d (s ++ cNew)).map _ = _
  rw [hsome]
  rfl

/-- C6: coverage grows monotonically with the threshold: at two thresholds
`t1 < t2` and a fixed configuration the evaluator's coverage fraction at
`t1` is at most the one at `t2`, and for the solver's coverage sets each
`cover(i)` at a threshold `q1 < q2` is a subset of `cover(i)` at `q2`. -/
theorem coverage_monotone_in_threshold (t1 t2 : ℝ) (h12 : t1 < t2)
    (q1 q2 : ℚ) (hq : q1 < q2) :
    (∀ d s cand chosen cNew, cIloc cand chosen = some cNew → s ++ cNew ≠ [] →
      ∃ m1 m2, evalSolution d s cand chosen t1 = some m1 ∧
        evalSolution d s cand chosen t2 = some m2 ∧ m1.covFrac ≤ m2.covFrac) ∧
    (∀ rows i, cover rows q1 i ⊆ cover rows q2 i) := by
  constructor
  · intro d s cand chosen cNew hc hne
    refine ⟨_, _, evalSolution_eq d s cand chosen cNew t1 hc hne,
      evalSolution_eq d s cand chosen cNew t2 hc hne, ?_⟩
    show (((d.map (fun p => (((s ++ cNew).map (npDist p)).min?).getD 0)).filter
        (fun x => decide (x ≤ t1))).length : ℝ) / d.length ≤
      (((d.map (fun p => (((s ++ cNew).map (npDist p)).min?).getD 0)).filter
        (fun x => decide (x ≤ t2))).length : ℝ) / d.length
    have hcnt : ((d.map (fun p => (((s ++ cNew).map (npDist p)).min?).getD 0)).filter
          (fun x => decide (x ≤ t1))).length ≤
        ((d.map (fun p => (((s ++ cNew).map (npDist p)).min?).getD 0)).filter
          (fun x => decide (x ≤ t2))).length := by
      apply List.Sublist.length_le
      apply List.monotone_filter_right
      intro a ha
      simp only [decide_eq_true_eq] at ha ⊢
      exact le_trans ha (le_of_lt h12)
    rcases Nat.eq_zero_or_pos d.length with h0 | hpos
    · have hd : d = [] := List.length_eq_zero.mp h0
      subst hd
      simp
    · have hcast : (0 : ℝ) < d.length := by exact_mod_cast hpos
      exact (div_le_div_iff_of_pos_right hcast).mpr (by exact_mod_cast hcnt)
  · intro rows i j hj
    rw [cover, List.mem_map] at hj
    obtain ⟨r, hr, rfl⟩ := hj
    rw [List.mem_filter] at hr
    refine List.mem_map.mpr ⟨r, List.mem_filter.mpr ⟨hr.1, ?_⟩, rfl⟩
    have h2 := hr.2
    simp only [Bool.and_eq_true, decide_eq_true_eq, beq_iff_eq] at h2 ⊢
    exact ⟨h2.1, le_trans h2.2 (le_of_lt hq)⟩

/-- Witness for coverage_monotone_in_threshold at thresholds 1 < 2. -/
theorem coverage_monotone_in_threshold_witness :
    ((1 : ℝ) < 2 ∧ (1 : ℚ) < 2) ∧
    ((∀ d s cand chosen cNew, cIloc cand chosen = some cNew → s ++ cNew ≠ [] →
      ∃ m1 m2, evalSolution d s cand chosen 1 = some m1 ∧
        evalSolution d s cand chosen 2 = some m2 ∧ m1.covFrac ≤ m2.covFrac) ∧
    (∀ rows i, cover rows 1 i ⊆ cover rows 2 i)) :=
  ⟨⟨by norm_num, by norm_num⟩,
    coverage_monotone_in_threshold 1 2 (by norm_num) 1 2 (by norm_num)⟩

/-- Adding a non-finite float to anything is non-finite, from either side. -/
theorem fadd_none_right (a : FCoord) : fadd a none = none := by
  cases a <;> rfl

/-- The long table over an I×J index grid has I·J rows. -/
theorem sum_map_length_range (n m : ℕ) (f : ℕ → ℕ → CostRowF) :
    ((List.range n).map (List.length ∘ fun i => (List.range m).map (f i))).sum = n * m := by
  induction n with
  | zero => simp
  | succ n ih =>
    rw [List.range_succ, List.map_append, List.sum_append]
    simp [ih, Nat.succ_mul]

/-- Counterexample to C8 as stated: on an input whose single demand record
has a non-finite x coordinate, the DistanceMatrixBuilder does not fail with
a validation error — its result type has no error case at all — but
silently emits the full matrix, whose only entry carries a non-finite
cost. -/
theorem builder_no_validation_cex :
    mkCostMatrixF [(none, some 0)] [(some 0, some 0)] = [⟨0, 0, none⟩] := rfl

/-- C8 (amended): the DistanceMatrixBuilder performs no input validation:
it always emits the full I×J long table, and a non-finite coordinate in
demand record `k` silently propagates, every emitted row for demand `k`
carrying a non-finite cost. -/
theorem builder_propagates_nonfinite (dxy cxy : List (FCoord × FCoord)) (k : ℕ)
    (hk : k < dxy.length)
    (hnf : (dxy.getD k (none, none)).1 = none ∨ (dxy.getD k (none, none)).2 = none) :
    (mkCostMatrixF dxy cxy).length = dxy.length * cxy.length ∧
    ∀ row ∈ mkCostMatrixF dxy cxy, row.i = k → row.cost = none := by
  constructor
  · rw [mkCostMatrixF, List.length_flatMap, sum_map_length_range]
  · intro row hrow hik
    rw [mkCostMatrixF, List.mem_flatMap] at hrow
    obtain ⟨i, hi, hrow⟩ := hrow
    rw [List.mem_map] at hrow
    obtain ⟨j, hj, rfl⟩ := hrow
    simp only at hik
    subst hik
    rcases hnf with hx | hy
    · show fsqrtF (fadd (fsq (fsub _ _)) _) = none
      rw [hx]
      rfl
    · show fsqrtF (fadd (fsq (fsub (dxy.getD i (none, none)).1
          (cxy.getD j (none, none)).1)) (fsq (fsub (dxy.getD i (none, none)).2
          (cxy.getD j (none, none)).2))) = none
      rw [hy]
      show fsqrtF (fadd (fsq (fsub (dxy.getD i (none, none)).1
          (cxy.getD j (none, none)).1)) none) = none
      rw [fadd_none_right]
      rfl

/-- Witness for builder_propagates_nonfinite: one demand record with a
non-finite y coordinate, one candidate; the emitted matrix has one row and
its cost is non-finite. -/
theorem builder_propagates_nonfinite_witness :
    ((0 : ℕ) < ([((some (5 : ℝ)), (none : FCoord))] : List (FCoord × FCoord)).length ∧
      (([((some (5 : ℝ)), (none : FCoord))] : List (FCoord × FCoord)).getD 0 (none, none)).2 = none) ∧
    ((mkCostMatrixF [((some (5 : ℝ)), none)] [((some (0 : ℝ)), (some (0 : ℝ)))]).length =
        1 * 1 ∧
      ∀ row ∈ mkCostMatrixF [((some (5 : ℝ)), none)] [((some (0 : ℝ)), (some (0 : ℝ)))],
        row.i = 0 → row.cost = none) :=
  ⟨⟨by norm_num, rfl⟩,
    builder_propagates_nonfinite [((some (5 : ℝ)), none)]
      [((some (0 : ℝ)), (some (0 : ℝ)))] 0 (by norm_num) (Or.inr rfl)⟩
